import Mathlib

/-!
Verification of the grounding-space core of a symbolic knowledge base
(`src/lib/src/space/grounding.rs`) and of its C-interface environment
lifecycle (`src/c/src/metta.rs`).

The data model and every operation below are translated from the Rust
source.  Components of the repository that are referenced by the two
source files but live elsewhere (the matcher, `Bindings`, `split_expr`,
`ListMap`, the interpreter state) are modelled from the specification;
each such definition carries a doc comment starting with
`Modelled from the spec:`.
-/

namespace HyperonSpace

/-- Modelled from the spec: a Variable is a name plus a freshness counter
used to avoid capture on repeated rule use (`VariableAtom` lives outside
the two provided source files). -/
structure VariableAtom where
  name : String
  id : Nat
deriving DecidableEq, Repr

/-- Modelled from the spec: the Atom model, a tagged sum with four
variants (Symbol, Variable, Expression, Grounded).  Grounded values are
opaque host values; the source files never inspect them beyond equality,
so they are modelled by an opaque numeric identity whose equality
predicate is numeric equality. -/
inductive Atom where
  | sym (name : String)
  | var (v : VariableAtom)
  | expr (children : List Atom)
  | gnd (g : Nat)

mutual

/-- Structural equality of atoms is decidable (the derive handler does
not support the nested occurrence of `List Atom`). -/
def Atom.decEq : (a b : Atom) → Decidable (a = b)
  | .sym n, .sym m =>
      if h : n = m then .isTrue (by rw [h]) else .isFalse (by intro hc; cases hc; exact h rfl)
  | .var v, .var w =>
      if h : v = w then .isTrue (by rw [h]) else .isFalse (by intro hc; cases hc; exact h rfl)
  | .gnd g, .gnd g' =>
      if h : g = g' then .isTrue (by rw [h]) else .isFalse (by intro hc; cases hc; exact h rfl)
  | .expr ch, .expr ch' =>
      match Atom.decEqList ch ch' with
      | .isTrue h => .isTrue (by rw [h])
      | .isFalse h => .isFalse (by intro hc; cases hc; exact h rfl)
  | .sym _, .var _ => .isFalse (fun h => Atom.noConfusion h)
  | .sym _, .expr _ => .isFalse (fun h => Atom.noConfusion h)
  | .sym _, .gnd _ => .isFalse (fun h => Atom.noConfusion h)
  | .var _, .sym _ => .isFalse (fun h => Atom.noConfusion h)
  | .var _, .expr _ => .isFalse (fun h => Atom.noConfusion h)
  | .var _, .gnd _ => .isFalse (fun h => Atom.noConfusion h)
  | .expr _, .sym _ => .isFalse (fun h => Atom.noConfusion h)
  | .expr _, .var _ => .isFalse (fun h => Atom.noConfusion h)
  | .expr _, .gnd _ => .isFalse (fun h => Atom.noConfusion h)
  | .gnd _, .sym _ => .isFalse (fun h => Atom.noConfusion h)
  | .gnd _, .var _ => .isFalse (fun h => Atom.noConfusion h)
  | .gnd _, .expr _ => .isFalse (fun h => Atom.noConfusion h)

/-- Decidable equality of atom lists. -/
def Atom.decEqList : (l l' : List Atom) → Decidable (l = l')
  | [], [] => .isTrue rfl
  | [], _ :: _ => .isFalse (fun h => List.noConfusion h)
  | _ :: _, [] => .isFalse (fun h => List.noConfusion h)
  | a :: as', b :: bs =>
      match Atom.decEq a b, Atom.decEqList as' bs with
      | .isTrue h1, .isTrue h2 => .isTrue (by rw [h1, h2])
      | .isFalse h1, _ => .isFalse (by intro h; injection h with h1' h2'; exact h1 h1')
      | _, .isFalse h2 => .isFalse (by intro h; injection h with h1' h2'; exact h2 h2')

end

instance : DecidableEq Atom := Atom.decEq

/-- Translated from `IndexKey` in grounding.rs: keys of the term-index
trie.  `exprBegin` carries the whole expression atom (the Rust key holds
the `ExpressionAtom` itself) and the arity span. -/
inductive IndexKey where
  | symbol (name : String)
  | wildcard
  | exprBegin (e : Atom) (span : Nat)
  | exprEnd
deriving DecidableEq

mutual

/-- Translated from `IndexKey::keys_from_atom`, presented in processing
order: the Rust code builds the vector in reverse and pops keys from the
end, so the list below is the order in which the tree walk consumes the
keys.  `expr_len` in the source counts the keys of all children plus the
closing `ExpressionEnd`. -/
def lin : Atom → List IndexKey
  | .sym n => [.symbol n]
  | .var _ => [.wildcard]
  | .gnd _ => [.wildcard]
  | .expr ch =>
      .exprBegin (.expr ch) ((linList ch).length + 1) :: (linList ch ++ [.exprEnd])

/-- Keys of a list of children, left to right (the reversed-append in the
source combined with pop-from-the-end yields left-to-right consumption). -/
def linList : List Atom → List IndexKey
  | [] => []
  | a :: as' => lin a ++ linList as'

end

/-- Translated from `IndexTree<T>` in grounding.rs: a trie node holding a
`ListMap` from keys to child nodes and a bag of leaf payloads. -/
inductive IndexTree (T : Type) where
  | mk (next : List (IndexKey × IndexTree T)) (leaf : List T)

/-- The child map of a node. -/
def IndexTree.next {T : Type} : IndexTree T → List (IndexKey × IndexTree T)
  | .mk n _ => n

/-- The payload bag of a node. -/
def IndexTree.leaf {T : Type} : IndexTree T → List T
  | .mk _ l => l

/-- Translated from `IndexTree::new`. -/
def emptyTree {T : Type} : IndexTree T := .mk [] []

/-- Modelled from the spec: `ListMap::get`, first entry with an equal key
(the collection lives in `common/collections`, outside the provided
sources; it is a map with insertion-order iteration). -/
def lmLookup {T : Type} : List (IndexKey × IndexTree T) → IndexKey → Option (IndexTree T)
  | [], _ => none
  | (k', c) :: m, k => if k' = k then some c else lmLookup m k

/-- Modelled from the spec: updating the entry of `k` in a `ListMap`
(replace the first entry with that key, append a fresh one otherwise);
this is the net effect of `entry().or_insert()` followed by `get_mut`. -/
def lmSet {T : Type} : List (IndexKey × IndexTree T) → IndexKey → IndexTree T → List (IndexKey × IndexTree T)
  | [], k, c => [(k, c)]
  | (k', c') :: m, k, c => if k' = k then (k, c) :: m else (k', c') :: lmSet m k c

/-- The child of `k,` or a fresh empty node: `entry(key).or_insert(new)`. -/
def lmGetOr {T : Type} (m : List (IndexKey × IndexTree T)) (k : IndexKey) : IndexTree T :=
  (lmLookup m k).getD emptyTree

/-- Translated from `IndexTree::add` together with `next_or_insert`: walk
the key list inserting-or-descending; when the key is `ExpressionBegin`
the payload is also added along the continuation that skips the whole
expression (both continuations descend into the `ExpressionBegin`
child).  The walk ends by pushing the payload into the leaf bag of every
node reached with no keys left. -/
def addT {T : Type} (p : T) : List IndexKey → IndexTree T → IndexTree T
  | [], t => .mk t.next (t.leaf ++ [p])
  | .exprBegin e s :: ks, t =>
      let c := lmGetOr t.next (.exprBegin e s)
      let c := addT p (ks.drop s) c
      let c := addT p ks c
      .mk (lmSet t.next (.exprBegin e s) c) t.leaf
  | k :: ks, t =>
      let c := lmGetOr t.next k
      let c := addT p ks c
      .mk (lmSet t.next k c) t.leaf
termination_by ks _ => ks.length
decreasing_by
  all_goals simp
  omega

/-- Translated from `IndexTree::get` together with `IndexTree::next`:
descend with the per-key rules (Symbol follows the equal-symbol child and
the Wildcard child; ExpressionEnd follows only its child; ExpressionBegin
follows the Wildcard child skipping the expression in the pattern, then
the exactly matching ExpressionBegin child if present and otherwise every
ExpressionBegin child; Wildcard follows every child except
ExpressionEnd), collecting the leaf bags of the nodes reached with no
keys left.  The source drives the walk with an explicit stack; the
recursion below visits the same nodes, so the returned payloads agree up
to order. -/
def getT {T : Type} : List IndexKey → IndexTree T → List T
  | [], t => t.leaf
  | .symbol n :: ks, t =>
      (match lmLookup t.next (.symbol n) with
        | some c => getT ks c
        | none => []) ++
      (match lmLookup t.next .wildcard with
        | some c => getT ks c
        | none => [])
  | .exprEnd :: ks, t =>
      (match lmLookup t.next .exprEnd with
        | some c => getT ks c
        | none => [])
  | .exprBegin e s :: ks, t =>
      (match lmLookup t.next .wildcard with
        | some c => getT (ks.drop s) c
        | none => []) ++
      (match lmLookup t.next (.exprBegin e s) with
        | some c => getT ks c
        | none => t.next.flatMap (fun kc =>
            match kc.1 with
            | .exprBegin _ _ => getT ks kc.2
            | _ => []))
  | .wildcard :: ks, t =>
      t.next.flatMap (fun kc => if kc.1 = .exprEnd then [] else getT ks kc.2)
termination_by ks _ => ks.length
decreasing_by
  all_goals simp
  all_goals omega

/-- Translated from `IndexTree::remove_value`: drop the first occurrence
of the value from a leaf bag, reporting whether one was found (the source
computes the position with `iter().position` and removes at it). -/
def removeFirst {T : Type} [DecidableEq T] : List T → T → List T × Bool
  | [], _ => ([], false)
  | x :: xs, v =>
      if x = v then (xs, true)
      else
        let r := removeFirst xs v
        (x :: r.1, r.2)

/-- Translated from `IndexTree::remove`: walk only the exact key path
(`next.get_mut(&key)` per step, no duplication branch — the source marks
the missing second expression path with a FIXME), remove one occurrence
of the value from the reached leaf bag, and report whether a removal
occurred. -/
def removeT {T : Type} [DecidableEq T] (v : T) : List IndexKey → IndexTree T → IndexTree T × Bool
  | [], t =>
      let r := removeFirst t.leaf v
      (.mk t.next r.1, r.2)
  | k :: ks, t =>
      match lmLookup t.next k with
      | none => (t, false)
      | some c =>
          let r := removeT v ks c
          (.mk (lmSet t.next k r.1) t.leaf, r.2)

/-- Total number of occurrences of a payload in all leaf bags of a tree. -/
def countT {T : Type} [DecidableEq T] (v : T) (t : IndexTree T) : Nat :=
  t.leaf.count v + (t.next.attach.map (fun kc => countT v kc.1.2)).sum
termination_by sizeOf t
decreasing_by
  obtain ⟨⟨k, c⟩, hmem⟩ := kc
  have h1 : sizeOf (k, c) < sizeOf t.next := List.sizeOf_lt_of_mem hmem
  have h2 : sizeOf t.next < sizeOf t := by
    cases t with
    | mk n l => simp [IndexTree.next]; omega
  simp at h1 ⊢
  omega

/-- Modelled from the spec: Bindings, a finite map from Variable to Atom,
represented as an association list in insertion order (the real type
lives in `atom/matcher.rs`, outside the provided sources). -/
abbrev Bindings := List (VariableAtom × Atom)

/-- First binding of a variable, if any. -/
def blookup : Bindings → VariableAtom → Option Atom
  | [], _ => none
  | (v, t) :: b, w => if v = w then some t else blookup b w

mutual

/-- Modelled from the spec: the occurs check, whether a variable appears
inside an atom. -/
def occursIn (w : VariableAtom) : Atom → Bool
  | .var v => v = w
  | .expr ch => occursInList w ch
  | _ => false

/-- Occurs check over a list of children. -/
def occursInList (w : VariableAtom) : List Atom → Bool
  | [] => false
  | a :: as' => occursIn w a || occursInList w as'

end

mutual

/-- Modelled from the spec: `apply_bindings_to_atom` recursively
substitutes variables present in the bindings; variables not present pass
through. -/
def applyBindingsToAtom : Atom → Bindings → Atom
  | .var v, b =>
      (match blookup b v with
        | some t => t
        | none => .var v)
  | .expr ch, b => .expr (applyBindingsToList ch b)
  | a, _ => a

/-- Substitution over a list of children. -/
def applyBindingsToList : List Atom → Bindings → List Atom
  | [], _ => []
  | a :: as', b => applyBindingsToAtom a b :: applyBindingsToList as' b

end

/-- Modelled from the spec: `Bindings::merge` returns the union under
which every constraint of either argument is satisfied and `None` on
conflict.  The unifiability test on a common key is modelled by
structural equality of the bound atoms (no grounded custom matchers). -/
def bmerge : Bindings → Bindings → Option Bindings
  | b1, [] => some b1
  | b1, (v, t) :: rest =>
      match blookup b1 v with
      | some t' => if t' = t then bmerge b1 rest else none
      | none => bmerge (b1 ++ [(v, t)]) rest

/-- Modelled from the spec: `apply_bindings_to_bindings src dst` maps
every value of `dst` through substitution by `src`; used for the
self-consistent closure (the Result in the source is always Ok on the
self-application the query performs, which it unwraps with `expect`). -/
def applyBindingsToBindings (src dst : Bindings) : Bindings :=
  dst.map (fun vt => (vt.1, applyBindingsToAtom vt.2 src))

/-- Modelled from the spec: `Bindings::filter` keeps the entries whose
variable satisfies the predicate. -/
def bfilter (b : Bindings) (pred : VariableAtom → Bool) : Bindings :=
  b.filter (fun vt => pred vt.1)

mutual

/-- Translated from `collect_variables` in grounding.rs: recursive walk
gathering the variables of an atom into a set (`HashSet` modelled as a
duplicate-free list). -/
def cvAux : Atom → List VariableAtom → List VariableAtom
  | .var v, acc => if v ∈ acc then acc else acc ++ [v]
  | .expr ch, acc => cvList ch acc
  | _, acc => acc

/-- The inner loop of `collect_variables` over expression children. -/
def cvList : List Atom → List VariableAtom → List VariableAtom
  | [], acc => acc
  | a :: as', acc => cvList as' (cvAux a acc)

end

/-- Translated from `collect_variables` in grounding.rs. -/
def collectVariables (a : Atom) : List VariableAtom :=
  cvAux a []

mutual

/-- Strict upper bound on the freshness counters used in an atom. -/
def maxVarId : Atom → Nat
  | .var v => v.id + 1
  | .expr ch => maxVarIdList ch
  | _ => 0

/-- Strict upper bound over a list of children. -/
def maxVarIdList : List Atom → Nat
  | [] => 0
  | a :: as' => max (maxVarId a) (maxVarIdList as')

end

mutual

/-- Renaming every variable by shifting its freshness counter. -/
def shiftVars (off : Nat) : Atom → Atom
  | .var v => .var ⟨v.name, v.id + off⟩
  | .expr ch => .expr (shiftVarsList off ch)
  | a => a

/-- Shift over a list of children. -/
def shiftVarsList (off : Nat) : List Atom → List Atom
  | [] => []
  | a :: as' => shiftVars off a :: shiftVarsList off as'

end

/-- Modelled from the spec: `make_variables_unique` returns an atom
identical to its input except every variable has been renamed with a
fresh freshness counter.  The global counter of the implementation is
modelled by shifting every counter past every counter occurring in the
atom, which keeps distinct variables distinct and fresh relative to the
atom. -/
def makeVariablesUnique (a : Atom) : Atom :=
  shiftVars (maxVarId a) a

/-- Extending bindings with one variable-to-atom constraint: conflicts
with an existing non-equal binding fail, binding a variable to itself is
dropped, and the occurs check fails the branch. -/
def addVarBinding (b : Bindings) (v : VariableAtom) (a : Atom) : Option Bindings :=
  match blookup b v with
  | some t => if t = a then some b else none
  | none =>
      if a = .var v then some b
      else if occursIn v a then none
      else some (b ++ [(v, a)])

mutual

/-- Modelled from the spec: the matcher `match_atoms(data, pattern)` as
structural descent threading bindings.  A query variable binds to any
data sub-term (with priority), a data variable binds to the pattern
sub-term, symbols and grounded atoms compare by equality, and expression
children must match pairwise and in order.  Grounded custom matchers are
not modelled, so at most one Bindings results. -/
def matchAtomsAux : Atom → Atom → Bindings → Option Bindings
  | d, .var v, b => addVarBinding b v d
  | .var v, p, b => addVarBinding b v p
  | .sym n, .sym m, b => if n = m then some b else none
  | .gnd g, .gnd g', b => if g = g' then some b else none
  | .expr ds, .expr ps, b => matchLists ds ps b
  | _, _, _ => none

/-- Pairwise in-order matching of expression children. -/
def matchLists : List Atom → List Atom → Bindings → Option Bindings
  | [], [], b => some b
  | d :: ds, p :: ps, b =>
      (match matchAtomsAux d p b with
        | some b' => matchLists ds ps b'
        | none => none)
  | _, _, _ => none

end

/-- Modelled from the spec: `match_atoms` starting from empty bindings. -/
def matchAtoms (d p : Atom) : Option Bindings :=
  matchAtomsAux d p []

/-- Translated from `SpaceEvent` in grounding.rs. -/
inductive SpaceEvent where
  | add (a : Atom)
  | remove (a : Atom)
  | replace (f t : Atom)
deriving DecidableEq

/-- Modelled from the spec: the state of one observer object, an event
collector (as in the `SpaceObserver` example of the source) together
with the liveness of its strong owner; a dropped holder makes the weak
reference in the space dead. -/
structure ObserverState where
  alive : Bool
  events : List SpaceEvent
deriving DecidableEq

/-- The heap of observer objects that the weak references point into. -/
abbrev Registry := List ObserverState

/-- Translated from `GroundingSpace` in grounding.rs: the content vector
plus the observer list.  The `Weak<RefCell<dyn SpaceObserver>>` handles
are modelled as indices into an external registry, so that cloned spaces
refer to the same observer objects exactly as cloned `Weak` references
do. -/
structure GroundingSpace where
  content : List Atom
  observers : List Nat
deriving DecidableEq

/-- Whether the weak reference `i` can still be upgraded. -/
def aliveIn (reg : Registry) (i : Nat) : Bool :=
  match reg[i]? with
  | some o => o.alive
  | none => false

/-- One step of the notification loop: a live observer collects the
event, a dead one is skipped. -/
def appendEvent (reg : Registry) (i : Nat) (e : SpaceEvent) : Registry :=
  match reg[i]? with
  | some o => if o.alive then reg.set i ⟨o.alive, o.events ++ [e]⟩ else reg
  | none => reg

/-- Translated from `GroundingSpace::notify`: every observer that can be
upgraded receives the event in registration order; if any dead reference
was encountered the list is compacted by retaining the live ones. -/
def notify (obs : List Nat) (reg : Registry) (e : SpaceEvent) : List Nat × Registry :=
  let reg' := obs.foldl (fun r i => appendEvent r i e) reg
  let cleanup := obs.any (fun i => !(aliveIn reg i))
  (if cleanup then obs.filter (fun i => aliveIn reg i) else obs, reg')

/-- Translated from `GroundingSpace::new`. -/
def GroundingSpace.new : GroundingSpace := ⟨[], []⟩

/-- Translated from `GroundingSpace::from_vec`. -/
def GroundingSpace.fromVec (atoms : List Atom) : GroundingSpace := ⟨atoms, []⟩

/-- Translated from `GroundingSpace::add`: push the atom and notify
`Add`. -/
def GroundingSpace.add (s : GroundingSpace) (reg : Registry) (a : Atom) : GroundingSpace × Registry :=
  let n := notify s.observers reg (.add a)
  (⟨s.content ++ [a], n.1⟩, n.2)

/-- The position of the first element equal to `a`, as computed by
`iter().position(|other| other == atom)`. -/
def findPos : List Atom → Atom → Option Nat
  | [], _ => none
  | x :: xs, a => if x = a then some 0 else (findPos xs a).map (· + 1)

/-- Translated from `GroundingSpace::remove`: find the first position
whose content equals the atom; when found, remove it from the content,
notify `Remove` and return true, otherwise return false. -/
def GroundingSpace.remove (s : GroundingSpace) (reg : Registry) (a : Atom) : (GroundingSpace × Registry) × Bool :=
  match findPos s.content a with
  | some i =>
      let n := notify s.observers reg (.remove a)
      ((⟨s.content.eraseIdx i, n.1⟩, n.2), true)
  | none => ((s, reg), false)

/-- Translated from `GroundingSpace::replace`: find the first position
whose content equals `f`; when found, overwrite it with `t` in place,
notify `Replace` and return true, otherwise return false. -/
def GroundingSpace.replace (s : GroundingSpace) (reg : Registry) (f t : Atom) : (GroundingSpace × Registry) × Bool :=
  match findPos s.content f with
  | some i =>
      let n := notify s.observers reg (.replace f t)
      ((⟨s.content.set i t, n.1⟩, n.2), true)
  | none => ((s, reg), false)

/-- Translated from the derived `Clone` of `GroundingSpace`: both fields
are cloned, and cloning the `RefCell<Vec<Weak<..>>>` clones the vector of
weak references, which still point to the same observer objects. -/
def cloneSpace (s : GroundingSpace) : GroundingSpace :=
  ⟨s.content, s.observers⟩

/-- Translated from `GroundingSpace::register_observer`: push a weak
reference to the observer. -/
def registerObserver (s : GroundingSpace) (i : Nat) : GroundingSpace :=
  ⟨s.content, s.observers ++ [i]⟩

/-- Creating a fresh collector observer object in the registry. -/
def newObserver (reg : Registry) : Registry × Nat :=
  (reg ++ [⟨true, []⟩], reg.length)

/-- Dropping the strong owner of observer `i`: its weak references can no
longer be upgraded. -/
def dropObserver (reg : Registry) (i : Nat) : Registry :=
  match reg[i]? with
  | some o => reg.set i ⟨false, o.events⟩
  | none => reg

/-- Translated from the `PartialEq` impl of `GroundingSpace`: two spaces
are equal when their contents are equal (observers are ignored). -/
def spaceEq (s1 s2 : GroundingSpace) : Prop :=
  s1.content = s2.content

instance (s1 s2 : GroundingSpace) : Decidable (spaceEq s1 s2) := by
  unfold spaceEq
  infer_instance

/-- Modelled from the spec: `split_expr` splits a non-empty expression
into its head and the remaining children (`atom/subexpr.rs` is outside
the provided sources). -/
def splitExpr : Atom → Option (Atom × List Atom)
  | .expr (h :: args) => some (h, args)
  | _ => none

/-- Translated from `GroundingSpace::single_query`: for every content
atom in order, rename its variables fresh and collect every Bindings the
matcher produces against the query. -/
def singleQuery (s : GroundingSpace) (q : Atom) : List Bindings :=
  s.content.flatMap (fun next => (matchAtoms (makeVariablesUnique next) q).toList)

/-- Translated from `GroundingSpace::query`: a query headed by the comma
symbol folds its sub-queries left from the single empty Bindings —
substituting each prior binding into the sub-query, recursing, merging
and dropping failures, closing self-consistently — and finally filters
each result to the variables of the compound query; any other query is a
single query.  The unbounded Rust recursion through substituted
sub-queries is modelled with explicit fuel; fuel is consumed only at the
recursive call. -/
def queryFuel : Nat → GroundingSpace → Atom → List Bindings
  | 0, _, _ => []
  | fuel + 1, s, q =>
      match splitExpr q with
      | some (.sym h, args) =>
          if h = "," then
            let vars := collectVariables q
            let result := args.foldl (fun acc qi =>
              if acc.isEmpty then acc
              else acc.flatMap (fun prev =>
                let qi' := applyBindingsToAtom qi prev
                let res := queryFuel fuel s qi'
                (res.filterMap (fun next => bmerge prev next)).map
                  (fun merged => applyBindingsToBindings merged merged))) [([] : Bindings)]
            result.map (fun b => bfilter b (fun k => decide (k ∈ vars)))
          else singleQuery s q
      | _ => singleQuery s q

/-- The conjunctive-query semantics exactly as the specification words
it: fold the sub-queries left from the single empty Bindings; for each
prior binding substitute it into the sub-query, run the query on the
substituted atom, merge each inner result with the prior binding dropping
merge failures, and apply the self-consistent closure; finally filter
each Bindings to the variables appearing in the original compound
query.  Stated against an abstract recursive query `recQ` so that it can
be compared with the implementation. -/
def conjunctionSpec (recQ : Atom → List Bindings) (q : Atom) (args : List Atom) : List Bindings :=
  (args.foldl (fun acc qi =>
      acc.flatMap (fun prev =>
        (((recQ (applyBindingsToAtom qi prev)).filterMap (fun r => bmerge prev r)).map
          (fun merged => applyBindingsToBindings merged merged)))) [([] : Bindings)]).map
    (fun b => bfilter b (fun k => decide (k ∈ collectVariables q)))

/-- Translated from `EnvInitState` in metta.rs. -/
inductive EnvInitState where
  | uninitialized
  | inProcess
  | finished
deriving DecidableEq

/-- Modelled from the spec: `EnvBuilder` (from the library crate, outside
the provided sources) as an abstract accumulator of configuration
steps. -/
inductive EnvBuilder where
  | new
  | setWorkingDir (b : EnvBuilder) (p : Option String)
  | setConfigDir (b : EnvBuilder) (p : String)
  | noConfigDir (b : EnvBuilder)
  | addIncludePaths (b : EnvBuilder) (p : String)

/-- The process-wide `CURRENT_ENV_BUILDER` slot: the lifecycle state and
the optional builder; the mutex is dropped since the contract is
single-threaded and every access is run-to-completion. -/
abbrev EnvState := EnvInitState × Option EnvBuilder

/-- Translated from `take_current_builder` in metta.rs: panic (modelled
as `Except.error`) unless the lifecycle state equals the expected state,
then take the builder out of the slot (`unwrap` panics when absent). -/
def take_current_builder (expected : EnvInitState) (st : EnvState) : Except String EnvBuilder :=
  if st.1 ≠ expected then
    .error "Fatal Error: no active initialization in process.  Call environment_init_start first"
  else
    match st.2 with
    | some b => .ok b
    | none => .error "called unwrap on a missing builder"

/-- Translated from `replace_current_builder` in metta.rs. -/
def replace_current_builder (newState : EnvInitState) (b : Option EnvBuilder) : EnvState :=
  (newState, b)

/-- Translated from `environment_init_start` in metta.rs: panic unless
the state is Uninitialized, else move to InProcess with a fresh
builder. -/
def environment_init_start (st : EnvState) : Except String EnvState :=
  if st.1 ≠ .uninitialized then
    .error "Fatal Error: environment_init_start must be called only once"
  else
    .ok (.inProcess, some .new)

/-- Translated from `environment_init_finish` in metta.rs: take the
builder expecting InProcess (panicking otherwise), initialize the
platform environment (an external effect on the process, dropped here),
and move to Finished with an empty slot. -/
def environment_init_finish (st : EnvState) : Except String EnvState := do
  let _builder ← take_current_builder .inProcess st
  .ok (replace_current_builder .finished none)

/-- Translated from `environment_init_set_working_dir` in metta.rs: the
C null pointer is modelled by `none` and unsets the working directory. -/
def environment_init_set_working_dir (p : Option String) (st : EnvState) : Except String EnvState := do
  let b ← take_current_builder .inProcess st
  .ok (replace_current_builder .inProcess (some (.setWorkingDir b p)))

/-- Translated from `environment_init_set_config_dir` in metta.rs: a
null path is a fatal error. -/
def environment_init_set_config_dir (p : Option String) (st : EnvState) : Except String EnvState := do
  let b ← take_current_builder .inProcess st
  match p with
  | none => .error "Fatal Error: path cannot be NULL"
  | some path => .ok (replace_current_builder .inProcess (some (.setConfigDir b path)))

/-- Translated from `environment_init_disable_config_dir` in metta.rs. -/
def environment_init_disable_config_dir (st : EnvState) : Except String EnvState := do
  let b ← take_current_builder .inProcess st
  .ok (replace_current_builder .inProcess (some (.noConfigDir b)))

/-- Translated from `environment_init_add_include_path` in metta.rs: a
null path is a fatal error. -/
def environment_init_add_include_path (p : Option String) (st : EnvState) : Except String EnvState := do
  let b ← take_current_builder .inProcess st
  match p with
  | none => .error "Fatal Error: path cannot be NULL"
  | some path => .ok (replace_current_builder .inProcess (some (.addIncludePaths b path)))

/-- The C-interface operations that touch the process-wide environment
slot. -/
inductive EnvOp where
  | start
  | finish
  | setWorkingDir (p : Option String)
  | setConfigDir (p : Option String)
  | disableConfigDir
  | addIncludePath (p : Option String)

/-- Dispatch of one environment operation. -/
def envStep : EnvOp → EnvState → Except String EnvState
  | .start, st => environment_init_start st
  | .finish, st => environment_init_finish st
  | .setWorkingDir p, st => environment_init_set_working_dir p st
  | .setConfigDir p, st => environment_init_set_config_dir p st
  | .disableConfigDir, st => environment_init_disable_config_dir st
  | .addIncludePath p, st => environment_init_add_include_path p st

/-- Modelled from the spec: the outcome of consuming an interpreter
session state with `InterpreterState::into_result` (the interpreter lives
outside the provided sources): either the collected result atoms or a
plan-global error. -/
abbrev StepResult := Except String (List Atom)

/-- Translated from `step_get_result` in metta.rs: the atom vector passed
to the C callback — the collected results on success, and the empty
vector when `into_result` reports an error. -/
def step_get_result (step : StepResult) : List Atom :=
  match step with
  | .ok res => res
  | .error _ => []

/-- The mutation operations observed in claim C7. -/
inductive SOp where
  | add (a : Atom)
  | remove (a : Atom)
  | replace (f t : Atom)

/-- The event each successful mutation notifies. -/
def eventOf : SOp → SpaceEvent
  | .add a => .add a
  | .remove a => .remove a
  | .replace f t => .replace f t

/-- One mutation call: the resulting space and registry, and whether the
mutation succeeded (`add` always does). -/
def stepOp (s : GroundingSpace) (reg : Registry) : SOp → (GroundingSpace × Registry) × Bool
  | .add a => (s.add reg a, true)
  | .remove a => s.remove reg a
  | .replace f t => s.replace reg f t

/-- Running a sequence of mutations, reporting whether all succeeded. -/
def runOps : GroundingSpace → Registry → List SOp → (GroundingSpace × Registry) × Bool
  | s, reg, [] => ((s, reg), true)
  | s, reg, op :: ops =>
      let r := stepOp s reg op
      let rest := runOps r.1.1 r.1.2 ops
      (rest.1, r.2 && rest.2)

/-- Whether an atom linearizes to a single wildcard key. -/
def isVarOrGnd : Atom → Bool
  | .var _ => true
  | .gnd _ => true
  | _ => false

/-- The alignment relation under which index retrieval is provably
complete for every index state: the stored atom is a variable or a
grounded atom, the pattern is a variable or a grounded atom, or the
pattern equals the stored atom. -/
def aligned (a q : Atom) : Bool :=
  isVarOrGnd a || isVarOrGnd q || decide (a = q)

/-- Inserting one payload along several key lists in order. -/
def addAll {T : Type} (p : T) : List (List IndexKey) → IndexTree T → IndexTree T
  | [], t => t
  | ks :: js, t => addAll p js (addT p ks t)

/-- The continuations with which an insertion along `l` descends into the
child of `k`: none when `l` does not start with `k`; the remaining keys
when it does; and additionally the keys past the expression when `k` is
an `ExpressionBegin` (the treat-as-wildcard duplication). -/
def contAt (k : IndexKey) : List IndexKey → List (List IndexKey)
  | [] => []
  | k' :: ks =>
      if k' = k then
        match k' with
        | .exprBegin _ s => [ks.drop s, ks]
        | _ => [ks]
      else []

/-- The child that an insertion with head key `k` and tail `ks` builds on
top of the previous child `c`. -/
def childCore {T : Type} (p : T) (k : IndexKey) (ks : List IndexKey) (c : IndexTree T) : IndexTree T :=
  match k with
  | .exprBegin _ s => addT p ks (addT p (ks.drop s) c)
  | _ => addT p ks c

/-- Sum of the payload occurrences in the subtrees of a child map. -/
def countNext {T : Type} [DecidableEq T] (v : T) (m : List (IndexKey × IndexTree T)) : Nat :=
  (m.map (fun kc => countT v kc.2)).sum

theorem indexTree_eta {T : Type} (t : IndexTree T) : IndexTree.mk t.next t.leaf = t := by
  cases t
  rfl

theorem findPos_of_mem {l : List Atom} {a : Atom} (h : a ∈ l) :
    ∃ i, findPos l a = some i ∧ l.eraseIdx i = l.erase a := by
  induction l with
  | nil => cases h
  | cons x xs ih =>
      by_cases hx : x = a
      · subst hx
        exact ⟨0, by simp [findPos], by simp [List.eraseIdx]⟩
      · have hmem : a ∈ xs := by
          rcases List.mem_cons.mp h with h1 | h1
          · exact absurd h1.symm hx
          · exact h1
        obtain ⟨i, hfind, herase⟩ := ih hmem
        refine ⟨i + 1, ?_, ?_⟩
        · simp [findPos, hx, hfind]
        · have hb : (x == a) = false := by simp [hx]
          simp [List.eraseIdx, List.erase_cons, hb, herase]

theorem findPos_eq_none {l : List Atom} {a : Atom} (h : a ∉ l) :
    findPos l a = none := by
  induction l with
  | nil => rfl
  | cons x xs ih =>
      have hx : ¬ x = a := fun hc => h (hc ▸ List.mem_cons_self x xs)
      have hmem : a ∉ xs := fun hc => h (List.mem_cons_of_mem x hc)
      simp [findPos, hx, ih hmem]

/-- C10: at the C interface, `step_get_result` passes the callback the
empty atom vector whenever the consumed step result is an interpreter
error, which is exactly the vector a successful evaluation producing no
atoms passes, so a plan-global error is indistinguishable to the C caller
from an empty success. -/
theorem step_get_result_error_indistinguishable :
    (∀ e : String, step_get_result (.error e) = []) ∧
    (∀ e : String, step_get_result (.error e) = step_get_result (.ok [])) :=
  ⟨fun _ => rfl, fun _ => rfl⟩

/-- C9: the process-wide environment configuration follows the
three-state lifecycle: `environment_init_start` moves Uninitialized to
InProcess and aborts in any other state, `environment_init_finish` moves
InProcess to Finished and aborts otherwise, and no operation ever
returns to Uninitialized, so a start can succeed at most once per
process. -/
theorem env_lifecycle :
    (∀ st : EnvState, st.1 = .uninitialized →
      environment_init_start st = .ok (.inProcess, some .new)) ∧
    (∀ st : EnvState, st.1 ≠ .uninitialized →
      ∃ msg, environment_init_start st = .error msg) ∧
    (∀ b : EnvBuilder, environment_init_finish (.inProcess, some b) = .ok (.finished, none)) ∧
    (∀ st : EnvState, st.1 ≠ .inProcess →
      ∃ msg, environment_init_finish st = .error msg) ∧
    (∀ (op : EnvOp) (st st' : EnvState), envStep op st = .ok st' → st'.1 ≠ .uninitialized) := by
  refine ⟨?_, ?_, ?_, ?_, ?_⟩
  · intro st h
    simp [environment_init_start, h]
  · intro st h
    refine ⟨"Fatal Error: environment_init_start must be called only once", ?_⟩
    simp [environment_init_start, h]
  · intro b
    rfl
  · intro st h
    refine ⟨"Fatal Error: no active initialization in process.  Call environment_init_start first", ?_⟩
    simp only [environment_init_finish, take_current_builder, bind, Except.bind, if_neg,
      ne_eq, h, not_false_iff, if_pos]
  · intro op st st' h
    cases op <;>
      simp only [envStep, environment_init_start, environment_init_finish,
        environment_init_set_working_dir, environment_init_set_config_dir,
        environment_init_disable_config_dir, environment_init_add_include_path,
        take_current_builder, replace_current_builder, bind, Except.bind] at h <;>
      repeat' split at h
    any_goals cases h
    all_goals simp

/-- C9 witness: the lifecycle theorem applied at concrete states. -/
theorem env_lifecycle_witness :
    environment_init_start (.uninitialized, none) = .ok (.inProcess, some .new) ∧
    (∃ msg, environment_init_start (.finished, none) = .error msg) ∧
    environment_init_finish (.inProcess, some .new) = .ok (.finished, none) ∧
    (∃ msg, environment_init_finish (.uninitialized, none) = .error msg) ∧
    (((.inProcess, some .new) : EnvState).1 ≠ .uninitialized) :=
  ⟨env_lifecycle.1 (.uninitialized, none) rfl,
   env_lifecycle.2.1 (.finished, none) (by decide),
   env_lifecycle.2.2.1 .new,
   env_lifecycle.2.2.2.1 (.uninitialized, none) (by decide),
   env_lifecycle.2.2.2.2 .start (.uninitialized, none) (.inProcess, some .new) rfl⟩

/-- C5: evaluation of `GroundingSpace::remove` at the failing input
`from_vec [A]` with one live observer: the whole space state is the
content vector and the observer list, and removal updates exactly the
content and the collector events; there is no index component in the
space for `remove` to update. -/
theorem space_remove_failing_input_eval :
    GroundingSpace.remove ⟨[.sym "A"], [0]⟩ [⟨true, []⟩] (.sym "A") =
      ((⟨[], [0]⟩, [⟨true, [.remove (.sym "A")]⟩]), true) := by
  rfl

/-- C8: when every observer reference held by the space is dead (its
holder has been dropped), the next `add` purges the observer list
completely. -/
theorem dead_observers_purged (s : GroundingSpace) (reg : Registry) (a : Atom)
    (h : ∀ i ∈ s.observers, aliveIn reg i = false) :
    ((s.add reg a).1).observers = [] := by
  show (notify s.observers reg (.add a)).1 = []
  unfold notify
  cases hobs : s.observers with
  | nil => simp
  | cons j obs =>
      have hj : aliveIn reg j = false := h j (by rw [hobs]; exact List.mem_cons_self j obs)
      have hclean : ((j :: obs).any fun i => !(aliveIn reg i)) = true := by
        simp [List.any_cons, hj]
      have hfilter : (j :: obs).filter (fun i => aliveIn reg i) = [] := by
        rw [List.filter_eq_nil_iff]
        intro i hi
        rw [h i (by rw [hobs]; exact hi)]
        simp
      simp only [hclean, if_true, hfilter]

/-- C8 witness: one dead observer, one add, empty observer list. -/
theorem dead_observers_purged_witness :
    (((⟨[], [0]⟩ : GroundingSpace).add [⟨false, []⟩] (.sym "a")).1).observers = [] :=
  dead_observers_purged ⟨[], [0]⟩ [⟨false, []⟩] (.sym "a") (by decide)

/-- C3 counterexample: for the space `[A, B]`, `add A` then `remove A`
removes the first equal atom (at position 0), leaving `[B, A]`, which is
not equal to the prior state under the content equality of the space,
although `remove` returns true. -/
theorem add_remove_counterexample :
    (let s : GroundingSpace := ⟨[.sym "A", .sym "B"], []⟩
     let r1 := s.add [] (.sym "A")
     let r2 := r1.1.remove r1.2 (.sym "A")
     r2.2 = true ∧ ¬ spaceEq r2.1.1 s) := by
  decide

/-- C3 amended: `add A` then `remove A` returns true and yields a space
whose content is a permutation of the prior content; the space is equal
to the prior state whenever `A` did not already occur in the content
(removal takes the first equal atom, so a prior occurrence shifts the
order). -/
theorem add_remove_perm (s : GroundingSpace) (reg : Registry) (a : Atom) :
    (((s.add reg a).1.remove (s.add reg a).2 a).2 = true) ∧
    (((s.add reg a).1.remove (s.add reg a).2 a).1.1.content.Perm s.content) ∧
    (a ∉ s.content → spaceEq (((s.add reg a).1.remove (s.add reg a).2 a).1.1) s) := by
  have hmem : a ∈ s.content ++ [a] := by simp
  obtain ⟨i, hfind, herase⟩ := findPos_of_mem hmem
  have hcontent : ((s.add reg a).1).content = s.content ++ [a] := rfl
  have hremove :
      ((s.add reg a).1.remove (s.add reg a).2 a) =
        ((⟨(s.content ++ [a]).eraseIdx i, (notify ((s.add reg a).1).observers ((s.add reg a).2) (.remove a)).1⟩,
          (notify ((s.add reg a).1).observers ((s.add reg a).2) (.remove a)).2), true) := by
    unfold GroundingSpace.remove
    rw [hcontent, hfind]
  refine ⟨by rw [hremove], ?_, ?_⟩
  · rw [hremove]
    show ((s.content ++ [a]).eraseIdx i).Perm s.content
    rw [herase]
    have h1 : (s.content ++ [a]).Perm (a :: (s.content ++ [a]).erase a) :=
      List.perm_cons_erase hmem
    have h2 : (s.content ++ [a]).Perm (a :: s.content) :=
      List.perm_append_singleton a s.content
    exact (List.perm_cons a).mp (h1.symm.trans h2)
  · intro hnot
    rw [hremove]
    show ((s.content ++ [a]).eraseIdx i) = s.content
    rw [herase, List.erase_append_right _ hnot]
    simp

/-- C3 witness: the amended duality at a concrete input with the atom
not previously present. -/
theorem add_remove_perm_witness :
    (((GroundingSpace.mk [.sym "B"] []).add [] (.sym "A")).1.remove
        (((GroundingSpace.mk [.sym "B"] []).add [] (.sym "A")).2) (.sym "A")).2 = true ∧
    spaceEq
      ((((GroundingSpace.mk [.sym "B"] []).add [] (.sym "A")).1.remove
        (((GroundingSpace.mk [.sym "B"] []).add [] (.sym "A")).2) (.sym "A")).1.1)
      (GroundingSpace.mk [.sym "B"] []) :=
  ⟨(add_remove_perm (GroundingSpace.mk [.sym "B"] []) [] (.sym "A")).1,
   (add_remove_perm (GroundingSpace.mk [.sym "B"] []) [] (.sym "A")).2.2 (by decide)⟩

/-- C6 counterexample: a space with one live registered observer; the
derived clone copies the weak references, so adding to the clone notifies
the observer registered on the original space — its event list is no
longer empty. -/
theorem clone_counterexample :
    (let s : GroundingSpace := ⟨[], [0]⟩
     let reg : Registry := [⟨true, []⟩]
     let r := (cloneSpace s).add reg (.sym "A")
     r.2 = [⟨true, [.add (.sym "A")]⟩] ∧ r.2 ≠ reg) := by
  decide

theorem foldl_appendEvent_slot (e : SpaceEvent) :
    ∀ (obs : List Nat) (reg : Registry) (i : Nat) (o : ObserverState),
      reg[i]? = some o → o.alive = true →
      (obs.foldl (fun r j => appendEvent r j e) reg)[i]? =
        some ⟨true, o.events ++ List.replicate (obs.count i) e⟩ := by
  intro obs
  induction obs with
  | nil =>
      intro reg i o hi ha
      cases o with
      | mk al ev =>
          simp only [List.foldl_nil, hi, List.count_nil, List.replicate_zero, List.append_nil]
          simp only [ObserverState.alive] at ha
          rw [ha]
  | cons j obs ih =>
      intro reg i o hi ha
      simp only [List.foldl_cons]
      by_cases hj : j = i
      · subst hj
        have hlen : j < reg.length := (List.getElem?_eq_some.mp hi).1
        have happ : appendEvent reg j e = reg.set j ⟨o.alive, o.events ++ [e]⟩ := by
          unfold appendEvent
          rw [hi]
          simp [ha]
        have hslot : (appendEvent reg j e)[j]? = some ⟨true, o.events ++ [e]⟩ := by
          rw [happ, List.getElem?_set, if_pos rfl, if_pos hlen, ha]
        have := ih (appendEvent reg j e) j ⟨true, o.events ++ [e]⟩ hslot rfl
        rw [this]
        have hc : (j :: obs).count j = obs.count j + 1 := by
          simp [List.count_cons]
        rw [hc, List.replicate_succ]
        simp
      · have hslot : (appendEvent reg j e)[i]? = some o := by
          unfold appendEvent
          cases hjv : reg[j]? with
          | none => exact hi
          | some oj =>
              by_cases haj : oj.alive
              · simp only [haj, if_true]
                rw [List.getElem?_set_ne hj]
                exact hi
              · simp only [haj, if_false]
                exact hi
        have := ih (appendEvent reg j e) i o hslot ha
        rw [this]
        have hc : (j :: obs).count i = obs.count i := by
          simp [List.count_cons, hj]
        rw [hc]

theorem notify_slot (obs : List Nat) (reg : Registry) (e : SpaceEvent) (i : Nat)
    (o : ObserverState) (hi : reg[i]? = some o) (ha : o.alive = true) :
    (notify obs reg e).2[i]? = some ⟨true, o.events ++ List.replicate (obs.count i) e⟩ ∧
    (notify obs reg e).1.count i = obs.count i := by
  constructor
  · exact foldl_appendEvent_slot e obs reg i o hi ha
  · show (if obs.any (fun j => !(aliveIn reg j)) then obs.filter (fun j => aliveIn reg j) else obs).count i
        = obs.count i
    have hal : aliveIn reg i = true := by
      unfold aliveIn
      rw [hi]
      exact ha
    split
    · exact List.count_filter hal
    · rfl

/-- C6 amended: the derived clone copies the content and the weak
observer references; an add on the clone appends the atom to the
content deep copy without touching the original space, but it notifies
every live observer registered on the original space (one event per
registration). -/
theorem clone_shares_observers (s : GroundingSpace) (reg : Registry) (a : Atom) (i : Nat)
    (o : ObserverState) (hi : reg[i]? = some o) (ha : o.alive = true) (hmem : i ∈ s.observers) :
    (cloneSpace s).content = s.content ∧
    (cloneSpace s).observers = s.observers ∧
    ((cloneSpace s).add reg a).1.content = s.content ++ [a] ∧
    (∃ n, 0 < n ∧
      (((cloneSpace s).add reg a).2)[i]? =
        some ⟨true, o.events ++ List.replicate n (SpaceEvent.add a)⟩) := by
  refine ⟨rfl, rfl, rfl, s.observers.count i, ?_, ?_⟩
  · exact List.count_pos_iff.mpr hmem
  · exact (notify_slot s.observers reg (.add a) i o hi ha).1

/-- C6 witness: one live observer on the original space receives the
event produced by adding to the clone. -/
theorem clone_shares_observers_witness :
    (cloneSpace (GroundingSpace.mk [] [0])).content = (GroundingSpace.mk [] [0]).content ∧
    (cloneSpace (GroundingSpace.mk [] [0])).observers = (GroundingSpace.mk [] [0]).observers ∧
    ((cloneSpace (GroundingSpace.mk [] [0])).add [⟨true, []⟩] (.sym "A")).1.content =
      (GroundingSpace.mk [] [0]).content ++ [.sym "A"] ∧
    (∃ n, 0 < n ∧
      (((cloneSpace (GroundingSpace.mk [] [0])).add [⟨true, []⟩] (.sym "A")).2)[0]? =
        some ⟨true, (ObserverState.mk true []).events ++ List.replicate n (SpaceEvent.add (.sym "A"))⟩) :=
  clone_shares_observers (GroundingSpace.mk [] [0]) [⟨true, []⟩] (.sym "A") 0
    ⟨true, []⟩ rfl rfl (by decide)

theorem stepOp_slot (s : GroundingSpace) (reg : Registry) (op : SOp) (i : Nat)
    (E : List SpaceEvent) (hslot : reg[i]? = some ⟨true, E⟩)
    (hcount : s.observers.count i = 1) (hok : (stepOp s reg op).2 = true) :
    ((stepOp s reg op).1.2)[i]? = some ⟨true, E ++ [eventOf op]⟩ ∧
    ((stepOp s reg op).1.1).observers.count i = 1 := by
  have key : ∀ e : SpaceEvent,
      (notify s.observers reg e).2[i]? = some ⟨true, E ++ [e]⟩ ∧
      (notify s.observers reg e).1.count i = 1 := by
    intro e
    have h := notify_slot s.observers reg e i ⟨true, E⟩ hslot rfl
    rw [hcount] at h
    simpa using h
  cases op with
  | add a => exact key (.add a)
  | remove a =>
      simp only [stepOp, GroundingSpace.remove] at hok ⊢
      cases hfind : findPos s.content a with
      | none => rw [hfind] at hok; cases hok
      | some p => exact key (.remove a)
  | replace f t =>
      simp only [stepOp, GroundingSpace.replace] at hok ⊢
      cases hfind : findPos s.content f with
      | none => rw [hfind] at hok; cases hok
      | some p => exact key (.replace f t)

/-- C7: for any sequence of successful add, remove and replace
mutations on a space holding exactly one live registered collector
observer, the events recorded by that observer after the run are its
prior events followed by exactly the sequence of mutation events, in
order. -/
theorem observer_events_mirror (ops : List SOp) :
    ∀ (s : GroundingSpace) (reg : Registry) (i : Nat) (E : List SpaceEvent),
      reg[i]? = some ⟨true, E⟩ → s.observers.count i = 1 →
      (runOps s reg ops).2 = true →
      ((runOps s reg ops).1.2)[i]? = some ⟨true, E ++ ops.map eventOf⟩ := by
  induction ops with
  | nil =>
      intro s reg i E hslot hcount hok
      simpa [runOps] using hslot
  | cons op ops ih =>
      intro s reg i E hslot hcount hok
      unfold runOps at hok ⊢
      simp only [Bool.and_eq_true] at hok
      obtain ⟨h1, h2⟩ := stepOp_slot s reg op i E hslot hcount hok.1
      have := ih (stepOp s reg op).1.1 (stepOp s reg op).1.2 i (E ++ [eventOf op]) h1 h2 hok.2
      simpa [List.append_assoc] using this

/-- C7 witness: a concrete run of add, replace, remove recorded
exactly. -/
theorem observer_events_mirror_witness :
    ((runOps (GroundingSpace.mk [] [0]) [⟨true, []⟩]
        [.add (.sym "A"), .replace (.sym "A") (.sym "B"), .remove (.sym "B")]).1.2)[0]? =
      some ⟨true, [] ++ ([SOp.add (.sym "A"), SOp.replace (.sym "A") (.sym "B"),
        SOp.remove (.sym "B")].map eventOf)⟩ :=
  observer_events_mirror
    [.add (.sym "A"), .replace (.sym "A") (.sym "B"), .remove (.sym "B")]
    (GroundingSpace.mk [] [0]) [⟨true, []⟩] 0 [] rfl (by decide) (by decide)

theorem leaf_mk {T : Type} (m : List (IndexKey × IndexTree T)) (l : List T) :
    (IndexTree.mk m l).leaf = l := rfl

theorem next_mk {T : Type} (m : List (IndexKey × IndexTree T)) (l : List T) :
    (IndexTree.mk m l).next = m := rfl

theorem countT_unfold {T : Type} [DecidableEq T] (v : T) (t : IndexTree T) :
    countT v t = t.leaf.count v + countNext v t.next := by
  rw [countT]
  unfold countNext
  have h := List.attach_map_coe t.next (fun kc => countT v kc.2)
  rw [← h]

theorem removeFirst_spec {T : Type} [DecidableEq T] (v : T) (l : List T) :
    ((removeFirst l v).2 = true ∧ l.count v = (removeFirst l v).1.count v + 1) ∨
    ((removeFirst l v).2 = false ∧ (removeFirst l v).1 = l) := by
  induction l with
  | nil => exact .inr ⟨rfl, rfl⟩
  | cons x xs ih =>
      by_cases hx : x = v
      · left
        refine ⟨by simp [removeFirst, hx], ?_⟩
        simp [removeFirst, hx, List.count_cons]
      · rcases ih with ⟨hb, hcount⟩ | ⟨hb, heq⟩
        · left
          refine ⟨by simp [removeFirst, hx, hb], ?_⟩
          have hxv : (x == v) = false := by simp [hx]
          simp [removeFirst, hx, List.count_cons, hxv, hcount]
        · right
          refine ⟨by simp [removeFirst, hx, hb], ?_⟩
          simp [removeFirst, hx, heq]

theorem countNext_lmSet {T : Type} [DecidableEq T] (v : T) :
    ∀ (m : List (IndexKey × IndexTree T)) (k : IndexKey) (c c' : IndexTree T),
      lmLookup m k = some c →
      countNext v (lmSet m k c') + countT v c = countNext v m + countT v c' := by
  intro m
  induction m with
  | nil => intro k c c' h; cases h
  | cons kc m ih =>
      intro k c c' h
      obtain ⟨k0, c0⟩ := kc
      by_cases hk : k0 = k
      · have hc : c0 = c := by
          rw [lmLookup, if_pos hk] at h
          exact Option.some.inj h
        subst hc
        rw [lmSet, if_pos hk]
        unfold countNext
        simp only [List.map_cons, List.sum_cons]
        omega
      · rw [lmLookup, if_neg hk] at h
        have := ih k c c' h
        rw [lmSet, if_neg hk]
        unfold countNext at this ⊢
        simp only [List.map_cons, List.sum_cons]
        omega

theorem lmSet_lookup_self {T : Type} :
    ∀ (m : List (IndexKey × IndexTree T)) (k : IndexKey) (c : IndexTree T),
      lmLookup m k = some c → lmSet m k c = m := by
  intro m
  induction m with
  | nil => intro k c h; cases h
  | cons kc m ih =>
      intro k c h
      obtain ⟨k0, c0⟩ := kc
      by_cases hk : k0 = k
      · have hc : c0 = c := by
          rw [lmLookup, if_pos hk] at h
          exact Option.some.inj h
        subst hc
        subst hk
        rw [lmSet, if_pos rfl]
      · rw [lmLookup, if_neg hk] at h
        rw [lmSet, if_neg hk, ih k c h]

/-- C4: `IndexTree::remove` walks only the exact linearized path (one
node per key, no wildcard duplication): either it returns true and
exactly one occurrence of the payload disappears from the tree, or it
returns false and the tree is unchanged — true is returned if and only
if an occurrence was actually removed. -/
theorem index_remove_exact {T : Type} [DecidableEq T] (v : T) :
    ∀ (ks : List IndexKey) (t : IndexTree T),
      ((removeT v ks t).2 = true ∧ countT v t = countT v (removeT v ks t).1 + 1) ∨
      ((removeT v ks t).2 = false ∧ (removeT v ks t).1 = t) := by
  intro ks
  induction ks with
  | nil =>
      intro t
      have hred : removeT v [] t =
          (IndexTree.mk t.next (removeFirst t.leaf v).1, (removeFirst t.leaf v).2) := rfl
      rcases removeFirst_spec v t.leaf with ⟨hb, hcount⟩ | ⟨hb, heq⟩
      · left
        rw [hred]
        refine ⟨hb, ?_⟩
        rw [countT_unfold v t, countT_unfold]
        simp only [leaf_mk, next_mk]
        omega
      · right
        rw [hred]
        refine ⟨hb, ?_⟩
        rw [heq]
        exact indexTree_eta t
  | cons k ks ih =>
      intro t
      cases hl : lmLookup t.next k with
      | none =>
          right
          refine ⟨?_, ?_⟩ <;> simp [removeT, hl]
      | some c =>
          have hred : removeT v (k :: ks) t =
              (IndexTree.mk (lmSet t.next k (removeT v ks c).1) t.leaf,
                (removeT v ks c).2) := by
            simp [removeT, hl]
          rcases ih c with ⟨hb, hcount⟩ | ⟨hb, heq⟩
          · left
            rw [hred]
            refine ⟨hb, ?_⟩
            have hset := countNext_lmSet v t.next k c (removeT v ks c).1 hl
            rw [countT_unfold v t, countT_unfold]
            simp only [leaf_mk, next_mk]
            omega
          · right
            rw [hred]
            refine ⟨hb, ?_⟩
            rw [heq, lmSet_lookup_self t.next k c hl]
            exact indexTree_eta t

theorem foldl_guard_eq {α β : Type _} (g : List β → α → List β)
    (hg : ∀ x, g [] x = []) :
    ∀ (l : List α) (init : List β),
      l.foldl (fun acc x => if acc.isEmpty then acc else g acc x) init = l.foldl g init := by
  intro l
  induction l with
  | nil => intro init; rfl
  | cons x xs ih =>
      intro init
      simp only [List.foldl_cons]
      by_cases hinit : init = []
      · subst hinit
        rw [ih]
        simp [hg x]
      · have hne : init.isEmpty = false := by
          simp [hinit]
        simp only [hne, Bool.false_eq_true, if_false]
        exact ih _

/-- C1: on a query expression headed by the comma symbol,
`GroundingSpace::query` computes exactly the conjunctive semantics the
specification words: a left fold over the sub-queries starting from the
single empty Bindings — substituting each prior binding into the
sub-query, running the query recursively, merging each inner result with
the prior binding and dropping merge failures, applying the
self-consistent closure — followed by filtering every result to the
variables of the original compound query.  The recursion is compared at
matching fuel; the only textual difference, the short circuit on an
empty accumulator, is semantically invisible because a flat map over the
empty list is empty. -/
theorem query_comma_fold (n : Nat) (s : GroundingSpace) (args : List Atom) :
    queryFuel (n + 1) s (.expr (.sym "," :: args)) =
      conjunctionSpec (queryFuel n s) (.expr (.sym "," :: args)) args := by
  unfold queryFuel
  simp only [splitExpr]
  rw [if_pos trivial]
  unfold conjunctionSpec
  rw [foldl_guard_eq]
  intro x
  rfl

theorem lmLookup_lmSet_self {T : Type} :
    ∀ (m : List (IndexKey × IndexTree T)) (k : IndexKey) (c : IndexTree T),
      lmLookup (lmSet m k c) k = some c := by
  intro m
  induction m with
  | nil => intro k c; simp [lmSet, lmLookup]
  | cons kc m ih =>
      intro k c
      obtain ⟨k0, c0⟩ := kc
      by_cases hk : k0 = k
      · rw [lmSet, if_pos hk, lmLookup, if_pos rfl]
      · rw [lmSet, if_neg hk, lmLookup, if_neg hk]
        exact ih k c

theorem lmLookup_lmSet_ne {T : Type} :
    ∀ (m : List (IndexKey × IndexTree T)) (k1 k2 : IndexKey) (c : IndexTree T),
      k1 ≠ k2 → lmLookup (lmSet m k1 c) k2 = lmLookup m k2 := by
  intro m
  induction m with
  | nil => intro k1 k2 c h; simp [lmSet, lmLookup, h]
  | cons kc m ih =>
      intro k1 k2 c h
      obtain ⟨k0, c0⟩ := kc
      by_cases hk : k0 = k1
      · subst hk
        rw [lmSet, if_pos rfl, lmLookup, if_neg h, lmLookup, if_neg h]
      · rw [lmSet, if_neg hk, lmLookup, lmLookup]
        by_cases hk2 : k0 = k2
        · rw [if_pos hk2, if_pos hk2]
        · rw [if_neg hk2, if_neg hk2]
          exact ih k1 k2 c h

theorem mem_of_lmLookup {T : Type} :
    ∀ (m : List (IndexKey × IndexTree T)) (k : IndexKey) (c : IndexTree T),
      lmLookup m k = some c → (k, c) ∈ m := by
  intro m
  induction m with
  | nil => intro k c h; cases h
  | cons kc m ih =>
      intro k c h
      obtain ⟨k0, c0⟩ := kc
      by_cases hk : k0 = k
      · subst hk
        rw [lmLookup, if_pos rfl] at h
        rw [Option.some.inj h]
        exact List.mem_cons_self _ _
      · rw [lmLookup, if_neg hk] at h
        exact List.mem_cons_of_mem _ (ih k c h)

theorem addT_leaf {T : Type} (p : T) :
    ∀ (ks : List IndexKey) (t : IndexTree T),
      (addT p ks t).leaf = if ks = [] then t.leaf ++ [p] else t.leaf := by
  intro ks t
  match ks with
  | [] => simp [addT, leaf_mk]
  | .exprBegin e s :: ks => simp [addT, leaf_mk]
  | .symbol n :: ks => simp [addT, leaf_mk]
  | .wildcard :: ks => simp [addT, leaf_mk]
  | .exprEnd :: ks => simp [addT, leaf_mk]

theorem addAll_leaf {T : Type} (p : T) :
    ∀ (js : List (List IndexKey)) (t : IndexTree T),
      ∃ suf, (addAll p js t).leaf = t.leaf ++ suf := by
  intro js
  induction js with
  | nil => intro t; exact ⟨[], by simp [addAll]⟩
  | cons l js ih =>
      intro t
      obtain ⟨suf, hsuf⟩ := ih (addT p l t)
      rw [addAll, hsuf, addT_leaf]
      by_cases hl : l = []
      · exact ⟨[p] ++ suf, by simp [hl]⟩
      · exact ⟨suf, by simp [hl]⟩

theorem addAll_append {T : Type} (p : T) :
    ∀ (xs ys : List (List IndexKey)) (t : IndexTree T),
      addAll p (xs ++ ys) t = addAll p ys (addAll p xs t) := by
  intro xs
  induction xs with
  | nil => intro ys t; rfl
  | cons l xs ih =>
      intro ys t
      rw [List.cons_append, addAll, addAll, ih]

theorem addAll_contAt_childCore {T : Type} (p : T) (k : IndexKey) (ks : List IndexKey)
    (c : IndexTree T) :
    addAll p (contAt k (k :: ks)) c = childCore p k ks c := by
  cases k with
  | exprBegin e s => simp [contAt, childCore, addAll]
  | symbol n => simp [contAt, childCore, addAll]
  | wildcard => simp [contAt, childCore, addAll]
  | exprEnd => simp [contAt, childCore, addAll]

theorem contAt_cons_self_ne_nil (k : IndexKey) (ks : List IndexKey) :
    contAt k (k :: ks) ≠ [] := by
  cases k <;> simp [contAt]

theorem contAt_cons_ne (k k' : IndexKey) (ks : List IndexKey) (h : k' ≠ k) :
    contAt k (k' :: ks) = [] := by
  cases k' <;> simp [contAt, h]

theorem lookup_addT_of_contAt_nil {T : Type} (p : T) (l : List IndexKey)
    (t : IndexTree T) (k : IndexKey) (h : contAt k l = []) :
    lmLookup (addT p l t).next k = lmLookup t.next k := by
  match l with
  | [] => simp [addT, next_mk]
  | k' :: ks =>
      have hk : k' ≠ k := by
        intro hc
        subst hc
        exact contAt_cons_self_ne_nil k' ks h
      cases k' with
      | exprBegin e s =>
          simp only [addT, next_mk]
          exact lmLookup_lmSet_ne _ _ _ _ hk
      | symbol n =>
          simp only [addT, next_mk]
          exact lmLookup_lmSet_ne _ _ _ _ hk
      | wildcard =>
          simp only [addT, next_mk]
          exact lmLookup_lmSet_ne _ _ _ _ hk
      | exprEnd =>
          simp only [addT, next_mk]
          exact lmLookup_lmSet_ne _ _ _ _ hk

theorem lookup_addT_self {T : Type} (p : T) (k : IndexKey) (ks : List IndexKey)
    (t : IndexTree T) :
    lmLookup (addT p (k :: ks) t).next k =
      some (childCore p k ks (lmGetOr t.next k)) := by
  cases k with
  | exprBegin e s =>
      simp only [addT, next_mk]
      rw [lmLookup_lmSet_self]
      rfl
  | symbol n =>
      simp only [addT, next_mk]
      rw [lmLookup_lmSet_self]
      rfl
  | wildcard =>
      simp only [addT, next_mk]
      rw [lmLookup_lmSet_self]
      rfl
  | exprEnd =>
      simp only [addT, next_mk]
      rw [lmLookup_lmSet_self]
      rfl

theorem lookup_addAll {T : Type} (p : T) :
    ∀ (js : List (List IndexKey)) (t : IndexTree T) (k : IndexKey),
      (js.flatMap (contAt k) = [] → lmLookup (addAll p js t).next k = lmLookup t.next k) ∧
      (js.flatMap (contAt k) ≠ [] →
        lmLookup (addAll p js t).next k =
          some (addAll p (js.flatMap (contAt k)) (lmGetOr t.next k))) := by
  intro js
  induction js with
  | nil =>
      intro t k
      constructor
      · intro _; rfl
      · intro h; simp at h
  | cons l js ih =>
      intro t k
      have hflat : (l :: js).flatMap (contAt k) = contAt k l ++ js.flatMap (contAt k) := by
        simp [List.flatMap_cons]
      constructor
      · intro h
        rw [hflat] at h
        have hA : contAt k l = [] := (List.append_eq_nil.mp h).1
        have hB : js.flatMap (contAt k) = [] := (List.append_eq_nil.mp h).2
        show lmLookup (addAll p js (addT p l t)).next k = _
        rw [(ih (addT p l t) k).1 hB, lookup_addT_of_contAt_nil p l t k hA]
      · intro h
        rw [hflat]
        show lmLookup (addAll p js (addT p l t)).next k = _
        by_cases hA : contAt k l = []
        · have hB : js.flatMap (contAt k) ≠ [] := by
            rw [hflat] at h
            simpa [hA] using h
          rw [(ih (addT p l t) k).2 hB, hA, List.nil_append]
          unfold lmGetOr
          rw [lookup_addT_of_contAt_nil p l t k hA]
        · obtain ⟨ks, rfl⟩ : ∃ ks, l = k :: ks := by
            match l with
            | [] => exact absurd rfl hA
            | k' :: ks =>
                by_cases hk : k' = k
                · exact ⟨ks, by rw [hk]⟩
                · exact absurd (contAt_cons_ne k k' ks hk) hA
          have hself := lookup_addT_self p k ks t
          by_cases hB : js.flatMap (contAt k) = []
          · rw [(ih (addT p (k :: ks) t) k).1 hB, hself, hB, List.append_nil]
            rw [← addAll_contAt_childCore p k ks]
          · rw [(ih (addT p (k :: ks) t) k).2 hB]
            have hgetOr : lmGetOr (addT p (k :: ks) t).next k =
                childCore p k ks (lmGetOr t.next k) := by
              unfold lmGetOr
              rw [hself]
              rfl
            rw [hgetOr, ← addAll_contAt_childCore p k ks, ← addAll_append]

theorem lookup_addAll_addT {T : Type} (p : T) (js : List (List IndexKey)) (t : IndexTree T)
    (k : IndexKey) (ks : List IndexKey) :
    ∃ js', lmLookup (addAll p js (addT p (k :: ks) t)).next k =
      some (addAll p js' (childCore p k ks (lmGetOr t.next k))) := by
  by_cases hB : js.flatMap (contAt k) = []
  · refine ⟨[], ?_⟩
    rw [(lookup_addAll p js (addT p (k :: ks) t) k).1 hB, lookup_addT_self]
    rfl
  · refine ⟨js.flatMap (contAt k), ?_⟩
    rw [(lookup_addAll p js (addT p (k :: ks) t) k).2 hB]
    have hgetOr : lmGetOr (addT p (k :: ks) t).next k =
        childCore p k ks (lmGetOr t.next k) := by
      unfold lmGetOr
      rw [lookup_addT_self]
      rfl
    rw [hgetOr]

theorem drop_body (l : List IndexKey) (x : IndexKey) (r : List IndexKey) :
    ((l ++ [x]) ++ r).drop (l.length + 1) = r := by
  have h : (l ++ [x]).length = l.length + 1 := by simp
  rw [← h, List.drop_left]

theorem mem_leaf_addAll_addT_nil {T : Type} (p : T) (js : List (List IndexKey))
    (t : IndexTree T) : p ∈ (addAll p js (addT p [] t)).leaf := by
  obtain ⟨suf, hsuf⟩ := addAll_leaf p js (addT p [] t)
  have hleaf : (addT p [] t).leaf = t.leaf ++ [p] := by
    rw [addT_leaf]
    simp
  rw [hsuf, hleaf]
  simp

theorem getT_addT_self {T : Type} (p : T) :
    ∀ (L : List IndexKey) (js : List (List IndexKey)) (t : IndexTree T),
      p ∈ getT L (addAll p js (addT p L t)) := by
  intro L
  induction L with
  | nil =>
      intro js t
      simp only [getT]
      exact mem_leaf_addAll_addT_nil p js t
  | cons k ks ih =>
      intro js t
      obtain ⟨js', hlook⟩ := lookup_addAll_addT p js t k ks
      cases k with
      | symbol n =>
          simp only [getT]
          rw [hlook]
          refine List.mem_append.mpr (.inl ?_)
          exact ih js' (lmGetOr t.next (.symbol n))
      | exprEnd =>
          simp only [getT]
          rw [hlook]
          exact ih js' (lmGetOr t.next .exprEnd)
      | exprBegin e s =>
          simp only [getT]
          rw [hlook]
          refine List.mem_append.mpr (.inr ?_)
          exact ih js' (addT p (ks.drop s) (lmGetOr t.next (.exprBegin e s)))
      | wildcard =>
          simp only [getT]
          refine List.mem_flatMap.mpr ⟨(.wildcard, _), mem_of_lmLookup _ _ _ hlook, ?_⟩
          have hne : (IndexKey.wildcard = IndexKey.exprEnd) = False := by
            simp
          rw [if_neg (by simp)]
          exact ih js' (lmGetOr t.next .wildcard)

theorem drop_body_nil (l : List IndexKey) (x : IndexKey) :
    (l ++ [x]).drop (l.length + 1) = [] := by
  have h : (l ++ [x]).length = l.length + 1 := by simp
  rw [← h, List.drop_length]

theorem getT_stored_wildcard {T : Type} (p : T) (q : Atom) (t : IndexTree T) :
    p ∈ getT (lin q) (addT p [.wildcard] t) := by
  have hlook := lookup_addT_self p .wildcard [] t
  have hmemleaf : p ∈ (childCore p .wildcard [] (lmGetOr t.next .wildcard)).leaf := by
    show p ∈ (addT p [] (lmGetOr t.next .wildcard)).leaf
    rw [addT_leaf]
    simp
  cases q with
  | sym m =>
      simp only [lin, getT]
      rw [hlook]
      refine List.mem_append.mpr (.inr ?_)
      simpa only [getT] using hmemleaf
  | var v =>
      simp only [lin, getT]
      refine List.mem_flatMap.mpr ⟨(.wildcard, _), mem_of_lmLookup _ _ _ hlook, ?_⟩
      rw [if_neg (by simp)]
      simpa only [getT] using hmemleaf
  | gnd g =>
      simp only [lin, getT]
      refine List.mem_flatMap.mpr ⟨(.wildcard, _), mem_of_lmLookup _ _ _ hlook, ?_⟩
      rw [if_neg (by simp)]
      simpa only [getT] using hmemleaf
  | expr ch =>
      simp only [lin, getT]
      rw [hlook]
      refine List.mem_append.mpr (.inl ?_)
      rw [drop_body_nil]
      simpa only [getT] using hmemleaf

theorem getT_pattern_wildcard {T : Type} (p : T) (a : Atom) (t : IndexTree T) :
    p ∈ getT [IndexKey.wildcard] (addT p (lin a) t) := by
  cases a with
  | sym n =>
      have hlook := lookup_addT_self p (.symbol n) [] t
      simp only [lin, getT]
      refine List.mem_flatMap.mpr ⟨(.symbol n, _), mem_of_lmLookup _ _ _ hlook, ?_⟩
      rw [if_neg (by simp)]
      show p ∈ (childCore p (.symbol n) [] (lmGetOr t.next (.symbol n))).leaf
      show p ∈ (addT p [] (lmGetOr t.next (.symbol n))).leaf
      rw [addT_leaf]
      simp
  | var v =>
      exact getT_stored_wildcard p (.var v) t
  | gnd g =>
      exact getT_stored_wildcard p (.gnd g) t
  | expr ch =>
      have hlook := lookup_addT_self p
        (.exprBegin (.expr ch) ((linList ch).length + 1)) (linList ch ++ [.exprEnd]) t
      simp only [lin, getT]
      refine List.mem_flatMap.mpr
        ⟨(.exprBegin (.expr ch) ((linList ch).length + 1), _),
          mem_of_lmLookup _ _ _ hlook, ?_⟩
      rw [if_neg (by simp)]
      have hcore : p ∈ (addT p (linList ch ++ [IndexKey.exprEnd])
          (addT p ((linList ch ++ [IndexKey.exprEnd]).drop ((linList ch).length + 1))
            (lmGetOr t.next
              (IndexKey.exprBegin (.expr ch) ((linList ch).length + 1))))).leaf := by
        rw [drop_body_nil, addT_leaf, if_neg (by simp), addT_leaf]
        simp
      simpa only [getT, childCore] using hcore

/-- C2 amended: index retrieval is complete for the alignment relation —
the stored atom is a variable or a grounded atom (linearized as a
wildcard), the pattern is a variable or a grounded atom, or the pattern
equals the stored atom: for every prior index state, after adding the
atom with a payload, `get` on the pattern contains the payload.  Under
full structural matching the guarantee fails (see the counterexample):
when the exactly matching `ExpressionBegin` child exists, `get` does not
fan out, so a stored variable nested inside an expression matching a
different concrete pattern sub-expression can be missed. -/
theorem index_get_complete {T : Type} (p : T) (a q : Atom) (t : IndexTree T)
    (h : aligned a q = true) :
    p ∈ getT (lin q) (addT p (lin a) t) := by
  have h' : (isVarOrGnd a = true ∨ isVarOrGnd q = true) ∨ a = q := by
    simpa [aligned, Bool.or_eq_true, decide_eq_true_iff] using h
  rcases h' with (ha | hq) | rfl
  · have hla : lin a = [.wildcard] := by
      cases a <;> simp [isVarOrGnd] at ha <;> simp [lin]
    rw [hla]
    exact getT_stored_wildcard p q t
  · have hlq : lin q = [.wildcard] := by
      cases q <;> simp [isVarOrGnd] at hq <;> simp [lin]
    rw [hlq]
    exact getT_pattern_wildcard p a t
  · have hmain := getT_addT_self p (lin a) [] t
    simpa [addAll] using hmain

/-- C2 counterexample: the atom `((($x)) (B))` structurally matches the
pattern `(((B)) (B))` under the matcher (the data variable binds to `B`),
yet after adding it to an empty IndexTree with payload 7, `get` on that
pattern does not contain 7: the skip-duplication creates an
`ExpressionBegin (B)` child whose exact hit suppresses the wildcard
fan-out, so retrieval has a false negative. -/
theorem index_get_false_negative :
    ((matchAtoms (Atom.expr [.expr [.expr [.var ⟨"x", 0⟩]], .expr [.sym "B"]])
        (Atom.expr [.expr [.expr [.sym "B"]], .expr [.sym "B"]])).isSome = true) ∧
    ¬ ((7 : Nat) ∈ getT (lin (Atom.expr [.expr [.expr [.sym "B"]], .expr [.sym "B"]]))
        (addT 7 (lin (Atom.expr [.expr [.expr [.var ⟨"x", 0⟩]], .expr [.sym "B"]]))
          emptyTree)) := by
  constructor
  · rfl
  · have hempty : getT (lin (Atom.expr [.expr [.expr [.sym "B"]], .expr [.sym "B"]]))
        (addT 7 (lin (Atom.expr [.expr [.expr [.var ⟨"x", 0⟩]], .expr [.sym "B"]]))
          (emptyTree (T := Nat))) = [] := by
      simp [getT, addT, lin, linList, lmLookup, lmSet, lmGetOr, emptyTree, leaf_mk, next_mk,
        IndexTree.next, IndexTree.leaf]
    rw [hempty]
    simp

/-- C2 witness: the amended completeness at a concrete input — a pattern
variable retrieves a stored expression out of a non-empty tree. -/
theorem index_get_complete_witness :
    aligned (.expr [.sym "A"]) (.var ⟨"y", 0⟩) = true ∧
    (3 : Nat) ∈ getT (lin (Atom.var ⟨"y", 0⟩))
      (addT 3 (lin (Atom.expr [.sym "A"])) (addT 9 (lin (Atom.sym "Z")) emptyTree)) :=
  ⟨by decide,
   index_get_complete 3 (.expr [.sym "A"]) (.var ⟨"y", 0⟩)
     (addT 9 (lin (.sym "Z")) emptyTree) (by decide)⟩

end HyperonSpace
